import Mathlib

/-!
Verification of the authorized-origin validator `validateUrl` from
`src/client/www/components/dash/AppAuth.tsx`.

Strings are embedded as `List Char` (the sequence of UTF-16-like code
points never matters here; every relevant character is ASCII).  The
validator itself is translated directly from the TypeScript source.  The
platform URL parser invoked by `new URL(...)` is not part of the
repository; it is modelled below (`parseURL`) from the specification's
description of URI parsing: a scheme is the substring before the first
`:`, special (web) schemes carry an authority `host[:port]`, a thrown
`TypeError` is rendered as `none`.
-/

abbrev Chars := List Char

/-- Mirrors the TypeScript result union
`{ type: 'error'; message: string } | { type: 'success'; params: string[] }`. -/
inductive ValidationResult where
  | error (message : String)
  | success (params : List Chars)

deriving instance DecidableEq for ValidationResult

/-- Modelled from the spec: the record produced by the platform URL parser
(`new URL`), which is absent from `src/`.  Only the components the
validator reads are kept: the scheme (the substring before the first `:`),
the hostname and the port (`url.host` is `hostname[:port]`, `url.port`
is the port string, empty when no explicit port is present). -/
structure URLRec where
  scheme : Chars
  hostname : Chars
  port : Chars

deriving instance DecidableEq for URLRec

/-- JavaScript `s.startsWith(pat)`. -/
def hasStart : Chars → Chars → Bool
  | _, [] => true
  | [], _ :: _ => false
  | c :: s, d :: pat => c == d && hasStart s pat

/-- Split a list at the first occurrence of `c`: the part before it and the
part after it, or `none` when `c` does not occur. -/
def splitFirst (c : Char) : Chars → Option (Chars × Chars)
  | [] => none
  | d :: rest =>
      if d = c then some ([], rest)
      else (splitFirst c rest).map (fun p => (d :: p.1, p.2))

/-- JavaScript `host.split('.')`: the dot-separated pieces of a string
(`splitDot [] = [[]]`, matching `"".split('.') === [""]`). -/
def splitDot : Chars → List Chars
  | [] => [[]]
  | c :: rest =>
      if c = '.' then [] :: splitDot rest
      else
        match splitDot rest with
        | [] => [[c]]
        | p :: ps => (c :: p) :: ps

/-- Modelled from the spec: a URI scheme token — an ASCII letter followed
by letters, digits, `+`, `-` or `.`. -/
def validScheme : Chars → Bool
  | [] => false
  | c :: rest =>
      c.isAlpha && rest.all fun d => d.isAlpha || d.isDigit || d == '+' || d == '-' || d == '.'

def lowerChars (s : Chars) : Chars := s.map Char.toLower

/-- Modelled from the spec: the special (web) schemes, whose URLs carry a
host authority; compared case-insensitively. -/
def isSpecialScheme (sch : Chars) : Bool :=
  ["http".data, "https".data, "ws".data, "wss".data, "ftp".data, "file".data].contains
    (lowerChars sch)

/-- Modelled from the spec: code points that may not occur in a hostname. -/
def forbiddenHostChar (c : Char) : Bool :=
  c == Char.ofNat 0 || c == '\t' || c == '\n' || c == '\r' || c == ' ' || c == '#' ||
  c == '/' || c == ':' || c == '<' || c == '>' || c == '?' || c == '@' || c == '[' ||
  c == '\\' || c == ']' || c == '^' || c == '|'

/-- The authority portion of a URL ends at the first `/`, `?` or `#`. -/
def takeUntilDelim (s : Chars) : Chars :=
  s.takeWhile fun c => c != '/' && c != '?' && c != '#'

def hostOkChars (h : Chars) : Bool := h.all fun c => !forbiddenHostChar c

/-- Modelled from the spec: parse an authority `host[:port]`.  Userinfo is
not supported; the port must be all digits; a special-scheme URL requires a
non-empty hostname. -/
def parseAuthority (special : Bool) (a : Chars) : Option (Chars × Chars) :=
  if a.contains '@' then none
  else
    match splitFirst ':' a with
    | none => if hostOkChars a && (!special || !a.isEmpty) then some (a, []) else none
    | some (h, p) =>
        if hostOkChars h && (!special || !h.isEmpty) && p.all Char.isDigit then some (h, p)
        else none

/-- Modelled from the spec: the platform URL parser behind `new URL(...)`,
which is not in `src/`.  The input must begin `scheme:`; a special scheme
is followed by an authority (any run of slashes is skipped first, per the
WHATWG special-authority rule); a non-special scheme is followed either by
`//` and an authority or by an opaque path carrying no host; `none` stands
for the `TypeError` the platform parser throws. -/
def parseURL (s : Chars) : Option URLRec :=
  match splitFirst ':' s with
  | none => none
  | some (sch, rest) =>
      if validScheme sch then
        if isSpecialScheme sch then
          match parseAuthority true (takeUntilDelim (rest.dropWhile (· == '/'))) with
          | some (h, p) => some ⟨sch, h, p⟩
          | none => none
        else if rest.take 2 = ['/', '/'] then
          match parseAuthority false (takeUntilDelim (rest.drop 2)) with
          | some (h, p) => some ⟨sch, h, p⟩
          | none => none
        else some ⟨sch, [], []⟩
      else none

/-- `url.protocol`: the scheme followed by `:`. -/
def urlProtocol (u : URLRec) : Chars := u.scheme ++ [':']

/-- `url.host`: `hostname:port`, or just `hostname` when no port is set. -/
def urlHost (u : URLRec) : Chars :=
  u.hostname ++ (if u.port.isEmpty then [] else ':' :: u.port)

/-- The `try` block of the `generic` branch of `validateUrl`:
parse, throw (`none`) on a missing host or on a bare single-label host
without an explicit port (`host.split('.').length === 1 && !url.port`),
otherwise succeed with `[url.host]`. -/
def genericAttempt (s : Chars) : Option (List Chars) :=
  match parseURL s with
  | none => none
  | some u =>
      let host := urlHost u
      if host.isEmpty then none
      else if (splitDot host).length == 1 && u.port.isEmpty then none
      else some [host]

/-- The `generic` case of `validateUrl`, with its single recursive retry
unrolled: on failure, when the input does not start with `http`, the source
re-enters `validateUrl` on `"http://" + input`, and that call — whose input
does start with `http` — can only run its own attempt and otherwise report
`Invalid URL.`.  (`validateUrlR` below keeps the source's recursion
literally; a theorem relates the two at recursion depth two.) -/
def genericValidate (s : Chars) : ValidationResult :=
  match genericAttempt s with
  | some ps => .success ps
  | none =>
      if !hasStart s "http".data then
        match genericAttempt ("http://".data ++ s) with
        | some ps => .success ps
        | none => .error "Invalid URL."
      else .error "Invalid URL."

/-- The validator `validateUrl(originParam, service)` of `AppAuth.tsx`:
`netlify` and `vercel` always succeed; `custom-scheme` parses a URI and
returns `url.protocol.slice(0, -1)`; `generic` runs `genericAttempt` with
the http-prefixed retry; any other service kind is `Unknown type`. -/
def validateUrl (originParam service : Chars) : ValidationResult :=
  if service = "netlify".data then .success [originParam]
  else if service = "vercel".data then .success ["vercel.app".data, originParam]
  else if service = "custom-scheme".data then
    match parseURL originParam with
    | some u => .success [(urlProtocol u).dropLast]
    | none => .error "Invalid scheme."
  else if service = "generic".data then genericValidate originParam
  else .error "Unknown type"

/-- The source's literally recursive validator, made structural with a
fuel argument: `validateUrlR (fuel+1)` performs one dispatch and spends one
unit of fuel on the recursive http-prefixed retry; `none` means the fuel
ran out before the recursion finished. -/
def validateUrlR : Nat → Chars → Chars → Option ValidationResult
  | 0, _, _ => none
  | fuel + 1, originParam, service =>
      if service = "netlify".data then some (.success [originParam])
      else if service = "vercel".data then some (.success ["vercel.app".data, originParam])
      else if service = "custom-scheme".data then
        some (match parseURL originParam with
          | some u => .success [(urlProtocol u).dropLast]
          | none => .error "Invalid scheme.")
      else if service = "generic".data then
        match genericAttempt originParam with
        | some ps => some (.success ps)
        | none =>
            if !hasStart originParam "http".data then
              validateUrlR fuel ("http://".data ++ originParam) service
            else some (.error "Invalid URL.")
      else some (.error "Unknown type")

/-! ### Basic facts about the string helpers -/

theorem hasStart_http_append (s : Chars) :
    hasStart ("http://".data ++ s) "http".data = true := rfl

theorem splitFirst_eq_none (c : Char) (l : Chars) (h : c ∉ l) : splitFirst c l = none := by
  induction l with
  | nil => rfl
  | cons d rest ih =>
      simp only [List.mem_cons, not_or] at h
      simp [splitFirst, Ne.symm h.1, ih h.2]

theorem splitFirst_append (c : Char) (a b : Chars) (h : c ∉ a) :
    splitFirst c (a ++ c :: b) = some (a, b) := by
  induction a with
  | nil => simp [splitFirst]
  | cons d a' ih =>
      simp only [List.mem_cons, not_or] at h
      simp [splitFirst, Ne.symm h.1, ih h.2]

theorem splitFirst_some (c : Char) (l a b : Chars) (h : splitFirst c l = some (a, b)) :
    l = a ++ c :: b ∧ c ∉ a := by
  induction l generalizing a b with
  | nil => simp [splitFirst] at h
  | cons d rest ih =>
      by_cases hdc : d = c
      · subst hdc
        simp only [splitFirst, if_pos rfl, Option.some.injEq, Prod.mk.injEq] at h
        obtain ⟨rfl, rfl⟩ := h
        simp
      · simp only [splitFirst, if_neg hdc] at h
        cases hsf : splitFirst c rest with
        | none => rw [hsf] at h; simp at h
        | some pr =>
            obtain ⟨a', b'⟩ := pr
            rw [hsf] at h
            simp only [Option.map_some', Option.some.injEq, Prod.mk.injEq] at h
            obtain ⟨ha, hb⟩ := h
            subst ha
            subst hb
            obtain ⟨hl, hna⟩ := ih a' b' hsf
            subst hl
            refine ⟨rfl, ?_⟩
            simp only [List.mem_cons, not_or]
            exact ⟨fun e => hdc e.symm, hna⟩

theorem splitDot_ne_nil (l : Chars) : splitDot l ≠ [] := by
  induction l with
  | nil => simp [splitDot]
  | cons c rest ih =>
      by_cases h : c = '.'
      · simp [splitDot, h]
      · simp only [splitDot, if_neg h]
        cases hs : splitDot rest with
        | nil => simp
        | cons p ps => simp

theorem splitDot_length_one (l : Chars) : (splitDot l).length = 1 ↔ '.' ∉ l := by
  induction l with
  | nil => simp [splitDot]
  | cons c rest ih =>
      by_cases h : c = '.'
      · subst h
        simp only [splitDot, if_pos rfl, List.length_cons]
        constructor
        · intro hlen
          exact absurd (List.length_eq_zero.mp (Nat.succ_injective hlen))
            (splitDot_ne_nil rest)
        · intro hmem
          exact absurd (List.mem_cons_self '.' rest) hmem
      · simp only [splitDot, if_neg h]
        cases hs : splitDot rest with
        | nil => exact absurd hs (splitDot_ne_nil rest)
        | cons p ps =>
            rw [hs] at ih
            simp only [List.length_cons] at ih ⊢
            simp only [List.mem_cons, not_or]
            constructor
            · intro hlen
              exact ⟨fun e => h e.symm, ih.mp hlen⟩
            · intro hmem
              exact ih.mpr hmem.2

theorem hostOk_not_mem (h : Chars) (hk : hostOkChars h = true) :
    ':' ∉ h ∧ '/' ∉ h ∧ '?' ∉ h ∧ '#' ∉ h ∧ '@' ∉ h := by
  refine ⟨?_, ?_, ?_, ?_, ?_⟩ <;>
    · intro hm
      have := List.all_eq_true.mp hk _ hm
      exact absurd this (by decide)

theorem digit_beq_false (c k : Char) (hk : k.isDigit = false) (hd : c.isDigit = true) :
    (c == k) = false := by
  by_contra h
  rw [Bool.not_eq_false, beq_iff_eq] at h
  subst h
  rw [hd] at hk
  exact absurd hk (by decide)

theorem digit_not_forbidden (c : Char) (hd : c.isDigit = true) :
    forbiddenHostChar c = false := by
  unfold forbiddenHostChar
  rw [digit_beq_false c (Char.ofNat 0) (by decide) hd,
      digit_beq_false c '\t' (by decide) hd,
      digit_beq_false c '\n' (by decide) hd,
      digit_beq_false c '\r' (by decide) hd,
      digit_beq_false c ' ' (by decide) hd,
      digit_beq_false c '#' (by decide) hd,
      digit_beq_false c '/' (by decide) hd,
      digit_beq_false c ':' (by decide) hd,
      digit_beq_false c '<' (by decide) hd,
      digit_beq_false c '>' (by decide) hd,
      digit_beq_false c '?' (by decide) hd,
      digit_beq_false c '@' (by decide) hd,
      digit_beq_false c '[' (by decide) hd,
      digit_beq_false c '\\' (by decide) hd,
      digit_beq_false c ']' (by decide) hd,
      digit_beq_false c '^' (by decide) hd,
      digit_beq_false c '|' (by decide) hd]
  rfl

theorem digits_not_mem (p : Chars) (hp : p.all Char.isDigit = true) :
    '.' ∉ p ∧ ':' ∉ p ∧ '@' ∉ p ∧ '/' ∉ p ∧ '?' ∉ p ∧ '#' ∉ p := by
  refine ⟨?_, ?_, ?_, ?_, ?_, ?_⟩ <;>
    · intro hm
      have := List.all_eq_true.mp hp _ hm
      exact absurd this (by decide)

theorem digits_hostOk (p : Chars) (hp : p.all Char.isDigit = true) :
    hostOkChars p = true := by
  refine List.all_eq_true.mpr fun c hc => ?_
  rw [digit_not_forbidden c (List.all_eq_true.mp hp _ hc)]
  rfl

theorem takeUntilDelim_eq_self (s : Chars) (h : ∀ c ∈ s, c ≠ '/' ∧ c ≠ '?' ∧ c ≠ '#') :
    takeUntilDelim s = s := by
  unfold takeUntilDelim
  rw [List.takeWhile_eq_self_iff]
  intro c hc
  obtain ⟨h1, h2, h3⟩ := h c hc
  simp only [Bool.and_eq_true, bne_iff_ne, ne_eq]
  exact ⟨⟨h1, h2⟩, h3⟩

theorem dropWhile_slash (hn rest : Chars) (hhn : hn ≠ []) (hgood : hostOkChars hn = true) :
    (hn ++ rest).dropWhile (· == '/') = hn ++ rest := by
  cases hn with
  | nil => exact absurd rfl hhn
  | cons c t =>
      have hall := List.all_eq_true.mp hgood c (by simp)
      have hc : (c == '/') = false := by
        by_contra hcc
        rw [Bool.not_eq_false, beq_iff_eq] at hcc
        subst hcc
        exact absurd hall (by decide)
      show List.dropWhile (fun x => x == '/') (c :: (t ++ rest)) = _
      rw [List.dropWhile_cons, if_neg (by simp [hc])]
      rfl

theorem contains_at_false (X : Chars) (h : '@' ∉ X) : X.contains '@' = false := by
  simp [List.contains, List.elem_eq_mem, h]

/-! ### Soundness facts about the modelled parser -/

theorem parseAuthority_sound (sp : Bool) (a h p : Chars)
    (hpa : parseAuthority sp a = some (h, p)) :
    hostOkChars h = true ∧ p.all Char.isDigit = true := by
  unfold parseAuthority at hpa
  split at hpa
  · exact absurd hpa (by simp)
  · split at hpa
    · split at hpa
      · rename_i hcond
        simp only [Option.some.injEq, Prod.mk.injEq] at hpa
        obtain ⟨rfl, rfl⟩ := hpa
        rw [Bool.and_eq_true] at hcond
        exact ⟨hcond.1, rfl⟩
      · exact absurd hpa (by simp)
    · split at hpa
      · rename_i hcond
        simp only [Option.some.injEq, Prod.mk.injEq] at hpa
        obtain ⟨rfl, rfl⟩ := hpa
        rw [Bool.and_eq_true, Bool.and_eq_true] at hcond
        exact ⟨hcond.1.1, hcond.2⟩
      · exact absurd hpa (by simp)

theorem parseURL_sound (s : Chars) (u : URLRec) (h : parseURL s = some u) :
    hostOkChars u.hostname = true ∧ u.port.all Char.isDigit = true := by
  unfold parseURL at h
  split at h
  · exact absurd h (by simp)
  · split at h
    · split at h
      · split at h
        · rename_i h0 p0 hpa
          simp only [Option.some.injEq] at h
          subst h
          exact parseAuthority_sound true _ h0 p0 hpa
        · exact absurd h (by simp)
      · split at h
        · split at h
          · rename_i h0 p0 hpa
            simp only [Option.some.injEq] at h
            subst h
            exact parseAuthority_sound false _ h0 p0 hpa
          · exact absurd h (by simp)
        · simp only [Option.some.injEq] at h
          subst h
          exact ⟨rfl, rfl⟩
    · exact absurd h (by simp)

theorem parseURL_none (s : Chars) (hsf : splitFirst ':' s = none) : parseURL s = none := by
  unfold parseURL
  rw [hsf]

theorem parseURL_eq (s sch rest : Chars) (hsf : splitFirst ':' s = some (sch, rest)) :
    parseURL s =
      (if validScheme sch then
        if isSpecialScheme sch then
          match parseAuthority true (takeUntilDelim (rest.dropWhile (· == '/'))) with
          | some (h, p) => some ⟨sch, h, p⟩
          | none => none
        else if rest.take 2 = ['/', '/'] then
          match parseAuthority false (takeUntilDelim (rest.drop 2)) with
          | some (h, p) => some ⟨sch, h, p⟩
          | none => none
        else some ⟨sch, [], []⟩
      else none) := by
  unfold parseURL
  rw [hsf]

theorem parseURL_scheme_split (s : Chars) (u : URLRec) (h : parseURL s = some u) :
    ∃ rest, s = u.scheme ++ ':' :: rest ∧ ':' ∉ u.scheme := by
  cases hsf : splitFirst ':' s with
  | none => rw [parseURL_none s hsf] at h; exact absurd h (by simp)
  | some pr =>
      obtain ⟨sch, rest⟩ := pr
      rw [parseURL_eq s sch rest hsf] at h
      obtain ⟨hl, hna⟩ := splitFirst_some ':' s sch rest hsf
      have hsch : u.scheme = sch := by
        split at h
        · split at h
          · split at h
            · simp only [Option.some.injEq] at h; subst h; rfl
            · exact absurd h (by simp)
          · split at h
            · split at h
              · simp only [Option.some.injEq] at h; subst h; rfl
              · exact absurd h (by simp)
            · simp only [Option.some.injEq] at h; subst h; rfl
        · exact absurd h (by simp)
      rw [hsch]
      exact ⟨rest, hl, hna⟩

theorem genericAttempt_some (s : Chars) (ps : List Chars) (h : genericAttempt s = some ps) :
    ∃ u, parseURL s = some u ∧ ps = [urlHost u] ∧ urlHost u ≠ [] ∧
      ¬((splitDot (urlHost u)).length = 1 ∧ u.port = []) := by
  unfold genericAttempt at h
  cases hp : parseURL s with
  | none => rw [hp] at h; exact absurd h (by simp)
  | some u =>
      rw [hp] at h
      simp only at h
      refine ⟨u, rfl, ?_⟩
      split at h
      · exact absurd h (by simp)
      · split at h
        · exact absurd h (by simp)
        · rename_i hne hcond
          simp only [Option.some.injEq] at h
          refine ⟨h.symm, ?_, ?_⟩
          · intro he
            rw [List.isEmpty_iff] at hne
            exact hne he
          · intro ⟨hlen, hport⟩
            apply hcond
            rw [Bool.and_eq_true]
            constructor
            · rw [Nat.beq_eq_true_eq]
              exact hlen
            · rw [List.isEmpty_iff]
              exact hport

theorem isEmpty_false_of_ne (l : Chars) (h : l ≠ []) : l.isEmpty = false := by
  cases l with
  | nil => exact absurd rfl h
  | cons a t => rfl

theorem mem_hostport (hn p : Chars) (c : Char)
    (hc : c ∈ hn ++ if p.isEmpty then [] else ':' :: p) :
    c ∈ hn ∨ c = ':' ∨ c ∈ p := by
  cases p with
  | nil =>
      rw [show (if ([] : Chars).isEmpty then ([] : Chars) else ':' :: []) = [] from rfl,
        List.append_nil] at hc
      exact Or.inl hc
  | cons q p' =>
      rw [show (if (q :: p' : Chars).isEmpty then ([] : Chars) else ':' :: q :: p') =
        ':' :: q :: p' from rfl] at hc
      rcases List.mem_append.mp hc with h1 | h1
      · exact Or.inl h1
      · rcases List.mem_cons.mp h1 with h2 | h2
        · exact Or.inr (Or.inl h2)
        · exact Or.inr (Or.inr h2)

theorem hostport_no_at (hn p : Chars) (hgood : hostOkChars hn = true)
    (hp : p.all Char.isDigit = true) :
    '@' ∉ hn ++ if p.isEmpty then [] else ':' :: p := by
  intro hc
  rcases mem_hostport hn p '@' hc with h1 | h1 | h1
  · exact (hostOk_not_mem hn hgood).2.2.2.2 h1
  · exact absurd h1 (by decide)
  · exact (digits_not_mem p hp).2.2.1 h1

theorem hostport_no_delim (hn p : Chars) (hgood : hostOkChars hn = true)
    (hp : p.all Char.isDigit = true) :
    ∀ c ∈ hn ++ if p.isEmpty then [] else ':' :: p, c ≠ '/' ∧ c ≠ '?' ∧ c ≠ '#' := by
  intro c hc
  rcases mem_hostport hn p c hc with h1 | h1 | h1
  · refine ⟨?_, ?_, ?_⟩ <;> intro e <;> subst e
    · exact (hostOk_not_mem hn hgood).2.1 h1
    · exact (hostOk_not_mem hn hgood).2.2.1 h1
    · exact (hostOk_not_mem hn hgood).2.2.2.1 h1
  · subst h1; exact ⟨by decide, by decide, by decide⟩
  · refine ⟨?_, ?_, ?_⟩ <;> intro e <;> subst e
    · exact (digits_not_mem p hp).2.2.2.1 h1
    · exact (digits_not_mem p hp).2.2.2.2.1 h1
    · exact (digits_not_mem p hp).2.2.2.2.2 h1

theorem parseAuthority_hostport (hn p : Chars) (hhn : hn ≠ [])
    (hgood : hostOkChars hn = true) (hp : p.all Char.isDigit = true) :
    parseAuthority true (hn ++ if p.isEmpty then [] else ':' :: p) = some (hn, p) := by
  unfold parseAuthority
  rw [contains_at_false _ (hostport_no_at hn p hgood hp), if_neg (by simp)]
  cases p with
  | nil =>
      simp only [List.isEmpty_nil, if_pos, List.append_nil]
      rw [splitFirst_eq_none ':' hn (hostOk_not_mem hn hgood).1]
      rw [if_pos (by simp [hgood, isEmpty_false_of_ne hn hhn])]
  | cons q p' =>
      rw [show (if (q :: p' : Chars).isEmpty then ([] : Chars) else ':' :: q :: p') =
        ':' :: q :: p' from rfl]
      rw [splitFirst_append ':' hn (q :: p') (hostOk_not_mem hn hgood).1]
      simp [hgood, isEmpty_false_of_ne hn hhn, hp]

theorem parseURL_http_of_host (hn p : Chars) (hhn : hn ≠ [])
    (hgood : hostOkChars hn = true) (hp : p.all Char.isDigit = true) :
    parseURL ("http://".data ++ (hn ++ if p.isEmpty then [] else ':' :: p)) =
      some ⟨"http".data, hn, p⟩ := by
  have h0 : "http://".data ++ (hn ++ if p.isEmpty then [] else ':' :: p) =
      "http".data ++ ':' :: ('/' :: '/' :: (hn ++ if p.isEmpty then [] else ':' :: p)) := rfl
  rw [h0, parseURL_eq _ _ _ (splitFirst_append ':' "http".data _ (by decide))]
  rw [if_pos (by decide : validScheme "http".data = true)]
  rw [if_pos (by decide : isSpecialScheme "http".data = true)]
  have h1 : List.dropWhile (fun x => x == '/')
      ('/' :: '/' :: (hn ++ if p.isEmpty then [] else ':' :: p)) =
      hn ++ if p.isEmpty then [] else ':' :: p := by
    rw [List.dropWhile_cons, if_pos (by decide), List.dropWhile_cons, if_pos (by decide)]
    exact dropWhile_slash hn _ hhn hgood
  rw [h1, takeUntilDelim_eq_self _ (hostport_no_delim hn p hgood hp)]
  rw [parseAuthority_hostport hn p hhn hgood hp]

theorem genericAttempt_http_of_host (hn p : Chars) (hhn : hn ≠ [])
    (hgood : hostOkChars hn = true) (hp : p.all Char.isDigit = true)
    (hcheck : ¬((splitDot (hn ++ if p.isEmpty then [] else ':' :: p)).length = 1 ∧ p = [])) :
    genericAttempt ("http://".data ++ (hn ++ if p.isEmpty then [] else ':' :: p)) =
      some [hn ++ if p.isEmpty then [] else ':' :: p] := by
  unfold genericAttempt
  rw [parseURL_http_of_host hn p hhn hgood hp]
  have hu : urlHost ⟨"http".data, hn, p⟩ = hn ++ if p.isEmpty then [] else ':' :: p := rfl
  simp only [hu]
  have hne : (hn ++ if p.isEmpty then [] else ':' :: p) ≠ [] := by
    cases hn with
    | nil => exact absurd rfl hhn
    | cons a t => simp
  rw [if_neg (by rw [isEmpty_false_of_ne _ hne]; simp)]
  cases hp0 : p with
  | nil =>
      subst hp0
      have hlen : ((splitDot (hn ++ if ([] : Chars).isEmpty then [] else ':' :: [])).length
          == 1) = false :=
        beq_eq_false_iff_ne.mpr (fun he => hcheck ⟨he, rfl⟩)
      rw [hlen, Bool.false_and, if_neg (by simp)]
  | cons q p' =>
      subst hp0
      rw [show ((q :: p' : Chars).isEmpty) = false from rfl, Bool.and_false,
        if_neg (by simp)]

theorem genericAttempt_eval (s : Chars) (u : URLRec) (hp : parseURL s = some u) :
    genericAttempt s =
      (if (urlHost u).isEmpty then none
       else if (splitDot (urlHost u)).length == 1 && u.port.isEmpty then none
       else some [urlHost u]) := by
  unfold genericAttempt
  rw [hp]

theorem genericAttempt_none_of_parse_none (s : Chars) (hp : parseURL s = none) :
    genericAttempt s = none := by
  unfold genericAttempt
  rw [hp]

theorem genericAttempt_host_direct_none (hn p : Chars) (_hhn : hn ≠ [])
    (hgood : hostOkChars hn = true) (hp : p.all Char.isDigit = true) :
    genericAttempt (hn ++ if p.isEmpty then [] else ':' :: p) = none := by
  cases p with
  | nil =>
      rw [show (if ([] : Chars).isEmpty then ([] : Chars) else ':' :: []) = [] from rfl,
        List.append_nil]
      exact genericAttempt_none_of_parse_none hn
        (parseURL_none hn (splitFirst_eq_none ':' hn (hostOk_not_mem hn hgood).1))
  | cons q p' =>
      rw [show (if (q :: p' : Chars).isEmpty then ([] : Chars) else ':' :: q :: p') =
        ':' :: q :: p' from rfl]
      have hq : q.isDigit = true := List.all_eq_true.mp hp q (List.mem_cons_self q p')
      have hpe := parseURL_eq (hn ++ ':' :: q :: p') hn (q :: p')
        (splitFirst_append ':' hn (q :: p') (hostOk_not_mem hn hgood).1)
      by_cases hv : validScheme hn = true
      · rw [if_pos hv] at hpe
        by_cases hsp : isSpecialScheme hn = true
        · rw [if_pos hsp] at hpe
          have h1 : List.dropWhile (fun x => x == '/') (q :: p') = q :: p' := by
            rw [List.dropWhile_cons,
              if_neg (by simp [digit_beq_false q '/' (by decide) hq])]
          have h2 : takeUntilDelim (q :: p') = q :: p' := by
            refine takeUntilDelim_eq_self _ fun c hc => ?_
            refine ⟨?_, ?_, ?_⟩ <;> intro e <;> subst e
            · exact (digits_not_mem _ hp).2.2.2.1 hc
            · exact (digits_not_mem _ hp).2.2.2.2.1 hc
            · exact (digits_not_mem _ hp).2.2.2.2.2 hc
          have h3 : parseAuthority true (q :: p') = some (q :: p', []) := by
            unfold parseAuthority
            rw [contains_at_false _ (digits_not_mem _ hp).2.2.1, if_neg (by simp)]
            rw [splitFirst_eq_none ':' (q :: p') (digits_not_mem _ hp).2.1]
            rw [if_pos (by simp [digits_hostOk _ hp])]
          rw [h1, h2, h3] at hpe
          rw [genericAttempt_eval _ _ hpe]
          have hlen : (splitDot (q :: p')).length = 1 :=
            (splitDot_length_one _).mpr (digits_not_mem _ hp).1
          have hhost : urlHost ⟨hn, q :: p', []⟩ = (q :: p') ++ if ([] : Chars).isEmpty then []
              else ':' :: [] := rfl
          rw [hhost, if_neg (by simp), if_pos (by simp [hlen])]
        · rw [if_neg hsp] at hpe
          have htk : ¬((q :: p').take 2 = ['/', '/']) := by
            intro he
            rw [List.take_succ_cons] at he
            have hq' : q = '/' := (List.cons.injEq _ _ _ _).mp he |>.1
            subst hq'
            exact absurd hq (by decide)
          rw [if_neg htk] at hpe
          rw [genericAttempt_eval _ _ hpe]
          rw [show urlHost ⟨hn, [], []⟩ = [] from rfl]
          rw [if_pos (by simp)]
      · rw [if_neg hv] at hpe
        exact genericAttempt_none_of_parse_none _ hpe

theorem genericValidate_eval_none (s : Chars) (ha : genericAttempt s = none) :
    genericValidate s =
      (if !hasStart s "http".data then
        match genericAttempt ("http://".data ++ s) with
        | some ps => .success ps
        | none => .error "Invalid URL."
      else .error "Invalid URL.") := by
  unfold genericValidate
  rw [ha]

theorem genericValidate_eval_some (s : Chars) (ps : List Chars)
    (ha : genericAttempt s = some ps) : genericValidate s = .success ps := by
  unfold genericValidate
  rw [ha]

theorem genericValidate_success_inv (s : Chars) (ps : List Chars)
    (h : genericValidate s = .success ps) :
    genericAttempt s = some ps ∨ genericAttempt ("http://".data ++ s) = some ps := by
  cases ha : genericAttempt s with
  | some ps' =>
      rw [genericValidate_eval_some s ps' ha] at h
      simp only [ValidationResult.success.injEq] at h
      subst h
      exact Or.inl rfl
  | none =>
      rw [genericValidate_eval_none s ha] at h
      by_cases hst : hasStart s "http".data = true
      · rw [hst] at h
        simp at h
      · rw [Bool.not_eq_true] at hst
        rw [hst] at h
        simp only [Bool.not_false, if_pos] at h
        cases hb : genericAttempt ("http://".data ++ s) with
        | some ps' =>
            rw [hb] at h
            simp only [ValidationResult.success.injEq] at h
            subst h
            exact Or.inr rfl
        | none =>
            rw [hb] at h
            simp at h

theorem validateUrl_generic_eq (s : Chars) :
    validateUrl s "generic".data = genericValidate s := rfl

/-! ### Claim theorems -/

/-- C8 (amended): re-validating the host produced by a successful `generic`
validation succeeds with the same host, provided that host does not itself
start with `http` (which would suppress the http-prefix retry) and does not
start with `:` (an empty hostname with a port).  The unamended claim fails;
see the counterexample below. -/
theorem generic_idem_amended (s h : Chars)
    (hs : validateUrl s "generic".data = .success [h])
    (hh : hasStart h "http".data = false)
    (hc : h.head? ≠ some ':') :
    validateUrl h "generic".data = .success [h] := by
  rw [validateUrl_generic_eq] at hs
  rw [validateUrl_generic_eq]
  have hex : ∃ x, genericAttempt x = some [h] := by
    rcases genericValidate_success_inv s [h] hs with hx | hx
    · exact ⟨s, hx⟩
    · exact ⟨_, hx⟩
  obtain ⟨x, hx⟩ := hex
  obtain ⟨u, hpu, hps, hne, hchk⟩ := genericAttempt_some x [h] hx
  obtain ⟨hgood, hdig⟩ := parseURL_sound x u hpu
  have hhu : h = urlHost u := by simpa using hps
  obtain ⟨sch, hn, p⟩ := u
  subst hhu
  have hX : urlHost ⟨sch, hn, p⟩ = hn ++ (if p.isEmpty then [] else ':' :: p) := rfl
  have hpp : (⟨sch, hn, p⟩ : URLRec).port = p := rfl
  rw [hX] at hh hc hne ⊢
  rw [hX, hpp] at hchk
  have hgood' : hostOkChars hn = true := hgood
  have hdig' : p.all Char.isDigit = true := hdig
  have hhn : hn ≠ [] := by
    intro he
    subst he
    cases p with
    | nil => exact hne rfl
    | cons q p' => exact hc rfl
  rw [genericValidate_eval_none _ (genericAttempt_host_direct_none hn p hhn hgood' hdig')]
  rw [hh]
  rw [genericAttempt_http_of_host hn p hhn hgood' hdig' hchk]
  rfl

/-- C8 (counterexample): validation is not idempotent on its own output as
claimed.  `validateUrl("http://httpfoo.com", "generic")` succeeds with
params `["httpfoo.com"]`, but re-validating `"httpfoo.com"` fails: its
direct parse fails (no scheme) and, since the string itself starts with
`http`, the http-prefix retry is suppressed, yielding `Invalid URL.`. -/
theorem generic_idem_counterexample :
    validateUrl "http://httpfoo.com".data "generic".data =
      .success ["httpfoo.com".data] ∧
    validateUrl "httpfoo.com".data "generic".data = .error "Invalid URL." :=
  ⟨by decide, by decide⟩

theorem generic_idem_amended_witness :
    validateUrl "example.com".data "generic".data = .success ["example.com".data] :=
  generic_idem_amended "http://example.com".data "example.com".data
    (by decide) (by decide) (by decide)

/-- C1: in the `generic` branch, a parsed URL whose host is a single
dot-free label with no explicit port is treated as a parse failure by the
attempt; consequently `localhost` is rejected (even after the http-prefix
retry), while `localhost:3000` and `example.com` are accepted with the
stated params. -/
theorem generic_bare_host_policy :
    (∀ s u, parseURL s = some u → (splitDot (urlHost u)).length = 1 → u.port = [] →
      genericAttempt s = none) ∧
    validateUrl "localhost".data "generic".data = .error "Invalid URL." ∧
    validateUrl "localhost:3000".data "generic".data = .success ["localhost:3000".data] ∧
    validateUrl "example.com".data "generic".data = .success ["example.com".data] := by
  refine ⟨?_, by decide, by decide, by decide⟩
  intro s u hp hlen hport
  rw [genericAttempt_eval s u hp]
  by_cases hemp : (urlHost u).isEmpty = true
  · rw [if_pos hemp]
  · rw [if_neg hemp, if_pos (by simp [hlen, hport])]

theorem generic_bare_host_policy_witness :
    genericAttempt "http://localhost".data = none :=
  generic_bare_host_policy.1 "http://localhost".data
    ⟨"http".data, "localhost".data, []⟩ (by decide) (by decide) rfl

/-- C2: on failure of the direct `generic` attempt the validator retries
exactly once with `http://` prepended — only when the input does not
already start with `http` (and the prepended input always does start with
`http`, so the retry cannot recurse further); if the input already starts
with `http`, or the retried attempt fails too, the result is the error
`Invalid URL.`; `example.com` succeeds via the retry. -/
theorem generic_http_retry :
    (∀ s : Chars, hasStart ("http://".data ++ s) "http".data = true) ∧
    (∀ s, genericAttempt s = none → hasStart s "http".data = false →
      validateUrl s "generic".data = validateUrl ("http://".data ++ s) "generic".data) ∧
    (∀ s, genericAttempt s = none → hasStart s "http".data = true →
      validateUrl s "generic".data = .error "Invalid URL.") ∧
    (∀ s, genericAttempt s = none → hasStart s "http".data = false →
      genericAttempt ("http://".data ++ s) = none →
      validateUrl s "generic".data = .error "Invalid URL.") ∧
    validateUrl "example.com".data "generic".data = .success ["example.com".data] := by
  refine ⟨fun s => hasStart_http_append s, ?_, ?_, ?_, by decide⟩
  · intro s ha hst
    rw [validateUrl_generic_eq, validateUrl_generic_eq]
    rw [genericValidate_eval_none s ha, hst]
    cases hb : genericAttempt ("http://".data ++ s) with
    | some ps =>
        rw [genericValidate_eval_some _ _ hb]
        rfl
    | none =>
        rw [genericValidate_eval_none _ hb, hasStart_http_append s]
        rfl
  · intro s ha hst
    rw [validateUrl_generic_eq, genericValidate_eval_none s ha, hst]
    rfl
  · intro s ha hst hb
    rw [validateUrl_generic_eq, genericValidate_eval_none s ha, hst, hb]
    rfl

theorem generic_http_retry_witness :
    validateUrl "example.com".data "generic".data =
      validateUrl "http://example.com".data "generic".data :=
  generic_http_retry.2.1 "example.com".data (by decide) (by decide)

theorem validateUrl_custom_eq (s : Chars) :
    validateUrl s "custom-scheme".data =
      (match parseURL s with
       | some u => .success [(urlProtocol u).dropLast]
       | none => .error "Invalid scheme.") := rfl

/-- C3: the `custom-scheme` branch succeeds on every parseable input with
params the singleton scheme — the substring of the input before its first
`:` — and fails with `Invalid scheme.` on every unparseable input. -/
theorem custom_scheme_spec :
    (∀ s u, parseURL s = some u →
      validateUrl s "custom-scheme".data = .success [u.scheme]) ∧
    (∀ s u, parseURL s = some u → ∃ rest, s = u.scheme ++ ':' :: rest ∧ ':' ∉ u.scheme) ∧
    (∀ s, parseURL s = none →
      validateUrl s "custom-scheme".data = .error "Invalid scheme.") ∧
    validateUrl "myapp://callback".data "custom-scheme".data = .success ["myapp".data] := by
  refine ⟨?_, fun s u h => parseURL_scheme_split s u h, ?_, by decide⟩
  · intro s u hp
    rw [validateUrl_custom_eq, hp]
    show ValidationResult.success [(urlProtocol u).dropLast] = _
    rw [show urlProtocol u = u.scheme ++ [':'] from rfl, List.dropLast_concat]
  · intro s hp
    rw [validateUrl_custom_eq, hp]

theorem custom_scheme_spec_witness :
    validateUrl "myapp://callback".data "custom-scheme".data =
      .success [(⟨"myapp".data, "callback".data, []⟩ : URLRec).scheme] :=
  custom_scheme_spec.1 "myapp://callback".data
    ⟨"myapp".data, "callback".data, []⟩ (by decide)

/-- C4: `netlify` always succeeds with params `[input]` and `vercel` always
succeeds with params `["vercel.app", input]`; neither performs any format
check, so neither ever fails. -/
theorem netlify_vercel_unchecked :
    ∀ s : Chars, validateUrl s "netlify".data = .success [s] ∧
      validateUrl s "vercel".data = .success ["vercel.app".data, s] :=
  fun _ => ⟨rfl, rfl⟩

/-- C5: whenever the validator succeeds — for any input and any service
kind — the returned params list is non-empty. -/
theorem success_params_nonempty :
    ∀ s service ps, validateUrl s service = .success ps → ps ≠ [] := by
  intro s service ps h
  unfold validateUrl at h
  by_cases h1 : service = "netlify".data
  · rw [if_pos h1] at h
    simp only [ValidationResult.success.injEq] at h
    subst h
    simp
  · rw [if_neg h1] at h
    by_cases h2 : service = "vercel".data
    · rw [if_pos h2] at h
      simp only [ValidationResult.success.injEq] at h
      subst h
      simp
    · rw [if_neg h2] at h
      by_cases h3 : service = "custom-scheme".data
      · rw [if_pos h3] at h
        cases hp : parseURL s with
        | some u =>
            rw [hp] at h
            simp only [ValidationResult.success.injEq] at h
            subst h
            simp
        | none => rw [hp] at h; simp at h
      · rw [if_neg h3] at h
        by_cases h4 : service = "generic".data
        · rw [if_pos h4] at h
          rcases genericValidate_success_inv s ps h with hx | hx <;>
            · obtain ⟨u, -, hps, hne, -⟩ := genericAttempt_some _ ps hx
              rw [hps]
              simp
        · rw [if_neg h4] at h
          simp at h

theorem success_params_nonempty_witness : (["mysite".data] : List Chars) ≠ [] :=
  success_params_nonempty "mysite".data "netlify".data ["mysite".data] (by decide)

/-- C6: the http-prefix fallback recursion of the source terminates after at
most one recursive call: fuel `2` always suffices for the literally
recursive `validateUrlR` and its value is the total function `validateUrl`. -/
theorem validateUrlR_two :
    ∀ s service, validateUrlR 2 s service = some (validateUrl s service) := by
  intro s service
  by_cases h1 : service = "netlify".data
  · subst h1; rfl
  · by_cases h2 : service = "vercel".data
    · subst h2; rfl
    · by_cases h3 : service = "custom-scheme".data
      · subst h3; rfl
      · by_cases h4 : service = "generic".data
        · subst h4
          show validateUrlR 2 s "generic".data = some (genericValidate s)
          unfold validateUrlR
          rw [if_neg (by decide), if_neg (by decide), if_neg (by decide), if_pos rfl]
          cases ha : genericAttempt s with
          | some ps => rw [genericValidate_eval_some s ps ha]
          | none =>
              rw [genericValidate_eval_none s ha]
              by_cases hst : hasStart s "http".data = true
              · rw [hst]
                rfl
              · rw [Bool.not_eq_true] at hst
                rw [hst]
                show validateUrlR 1 ("http://".data ++ s) "generic".data = _
                unfold validateUrlR
                rw [if_neg (by decide), if_neg (by decide), if_neg (by decide), if_pos rfl]
                cases hb : genericAttempt ("http://".data ++ s) with
                | some ps => rfl
                | none =>
                    rw [hasStart_http_append s]
                    rfl
        · unfold validateUrl validateUrlR
          rw [if_neg h1, if_neg h2, if_neg h3, if_neg h4,
            if_neg h1, if_neg h2, if_neg h3, if_neg h4]

/-- C7: any service kind outside the recognized set (`generic`, `netlify`,
`vercel`, `custom-scheme`) makes the validator fail with `Unknown type`,
for every input string. -/
theorem unknown_service_error :
    ∀ s service, service ≠ "generic".data → service ≠ "netlify".data →
      service ≠ "vercel".data → service ≠ "custom-scheme".data →
      validateUrl s service = .error "Unknown type" := by
  intro s service h1 h2 h3 h4
  unfold validateUrl
  rw [if_neg h2, if_neg h3, if_neg h4, if_neg h1]

theorem unknown_service_error_witness :
    validateUrl "url".data "heroku".data = .error "Unknown type" :=
  unknown_service_error "url".data "heroku".data
    (by decide) (by decide) (by decide) (by decide)

/-- C9: the validator is a pure function of its two arguments: equal inputs
and equal service kinds give equal results. -/
theorem validateUrl_deterministic :
    ∀ s₁ s₂ k₁ k₂ : Chars, s₁ = s₂ → k₁ = k₂ →
      validateUrl s₁ k₁ = validateUrl s₂ k₂ := by
  intro s₁ s₂ k₁ k₂ hs hk
  rw [hs, hk]

theorem validateUrl_deterministic_witness :
    validateUrl "a".data "generic".data = validateUrl "a".data "generic".data :=
  validateUrl_deterministic "a".data "a".data "generic".data "generic".data rfl rfl

/-- C10: the validator never escapes with an exception: every parse failure
is converted into a returned value, so for every input and service kind the
result is either a success or an error value. -/
theorem validateUrl_total :
    ∀ s service, (∃ ps, validateUrl s service = .success ps) ∨
      (∃ m, validateUrl s service = .error m) := by
  intro s service
  cases h : validateUrl s service with
  | error m => exact Or.inr ⟨m, rfl⟩
  | success ps => exact Or.inl ⟨ps, rfl⟩
